import Mathlib

/-!
Verification of the cell-linked-list mesh of SPHinXsys-GPU_soil
(`src/shared/meshes/cell_linked_list.hpp`).

Spatial cells are identified by integer coordinate tuples (`Arrayi` in the
source), embedded here as `List ℤ` so that the development is generic in the
spatial dimension.  The mesh iterators (`mesh_for_each`,
`mesh_stride_forward_for`, ..., from `mesh_iterators.hpp`) and the cell-storage
accessor `getCellDataList` are not among the provided sources; they are
modelled from the specification, with a doc comment marking each such
definition.
-/

namespace CellLinkedListVerify

/-- Integer interval `[lo, hi)` enumerated in increasing order. -/
def intRange (lo hi : ℤ) : List ℤ :=
  (List.range (hi - lo).toNat).map (fun k : ℕ => (lo + k : ℤ))

theorem mem_intRange {lo hi x : ℤ} : x ∈ intRange lo hi ↔ lo ≤ x ∧ x < hi := by
  unfold intRange
  simp only [List.mem_map, List.mem_range]
  constructor
  · rintro ⟨k, hk, rfl⟩
    omega
  · rintro ⟨h1, h2⟩
    exact ⟨(x - lo).toNat, by omega, by omega⟩

theorem nodup_intRange (lo hi : ℤ) : (intRange lo hi).Nodup := by
  unfold intRange
  exact (List.nodup_range _).map (fun a b h => by omega)

/-- Modelled from the spec: `mesh_for_each` (from `mesh_iterators.hpp`, not
among the provided sources) iterates every cell in the axis-aligned box
`[lower, upper)`.  `boxCells` enumerates those cells, first coordinate
outermost, each exactly once. -/
def boxCells : List ℤ → List ℤ → List (List ℤ)
  | [], [] => [[]]
  | l :: ls, u :: us =>
      (intRange l u).flatMap (fun c => (boxCells ls us).map (fun cs => c :: cs))
  | _, _ => []

theorem mem_boxCells : ∀ (ls us c : List ℤ),
    c ∈ boxCells ls us ↔
      (List.Forall₂ (fun l x => l ≤ x) ls c ∧ List.Forall₂ (fun x u => x < u) c us)
  | [], [], c => by
      simp [boxCells, List.forall₂_nil_left_iff, eq_comm]
  | [], u :: us, c => by
      constructor
      · intro h; simp [boxCells] at h
      · rintro ⟨h1, h2⟩
        rw [List.forall₂_nil_left_iff] at h1
        subst h1
        exact absurd h2 (by simp)
  | l :: ls, [], c => by
      constructor
      · intro h; simp [boxCells] at h
      · rintro ⟨h1, h2⟩
        rcases List.forall₂_cons_left_iff.mp h1 with ⟨x, cs, _, _, rfl⟩
        exact absurd h2 (by simp)
  | l :: ls, u :: us, c => by
      simp only [boxCells, List.mem_flatMap, List.mem_map]
      constructor
      · rintro ⟨a, ha, cs, hcs, rfl⟩
        rcases mem_intRange.mp ha with ⟨h1, h2⟩
        rcases (mem_boxCells ls us cs).mp hcs with ⟨h3, h4⟩
        exact ⟨List.Forall₂.cons h1 h3, List.Forall₂.cons h2 h4⟩
      · rintro ⟨h1, h2⟩
        rcases List.forall₂_cons_left_iff.mp h1 with ⟨x, cs, hx, hcs, rfl⟩
        rcases List.forall₂_cons.mp h2 with ⟨hxu, hcsus⟩
        exact ⟨x, mem_intRange.mpr ⟨hx, hxu⟩, cs, (mem_boxCells ls us cs).mpr ⟨hcs, hcsus⟩, rfl⟩

theorem nodup_boxCells : ∀ (ls us : List ℤ), (boxCells ls us).Nodup
  | [], [] => by simp [boxCells]
  | [], _ :: _ => by simp [boxCells]
  | _ :: _, [] => by simp [boxCells]
  | l :: ls, u :: us => by
      rw [boxCells, List.nodup_flatMap]
      refine ⟨fun a _ => (nodup_boxCells ls us).map (fun x y h => by injection h), ?_⟩
      refine (nodup_intRange l u).imp ?_
      intro a b hab
      intro c hc hc'
      simp only [List.mem_map] at hc hc'
      rcases hc with ⟨cs, _, rfl⟩
      rcases hc' with ⟨cs', _, h⟩
      injection h with h1 _
      exact hab h1.symm

theorem foldl_flatMap {α β σ : Type} (l : List α) (f : α → List β)
    (g : σ → β → σ) (s : σ) :
    (l.flatMap f).foldl g s = l.foldl (fun st x => (f x).foldl g st) s := by
  induction l generalizing s with
  | nil => rfl
  | cons a t ih => simp [List.flatMap_cons, List.foldl_append, ih]

theorem forall₂_iff_getD {α β : Type} (R : α → β → Prop) (l₁ : List α) (l₂ : List β)
    (d₁ : α) (d₂ : β) :
    List.Forall₂ R l₁ l₂ ↔
      l₁.length = l₂.length ∧ ∀ k, k < l₁.length → R (l₁.getD k d₁) (l₂.getD k d₂) := by
  rw [List.forall₂_iff_get]
  constructor
  · rintro ⟨hl, h⟩
    refine ⟨hl, fun k hk => ?_⟩
    have hk2 : k < l₂.length := hl ▸ hk
    rw [List.getD_eq_getElem _ _ hk, List.getD_eq_getElem _ _ hk2]
    exact h k hk hk2
  · rintro ⟨hl, h⟩
    refine ⟨hl, fun k hk hk2 => ?_⟩
    have hkd := h k hk
    rwa [List.getD_eq_getElem _ _ hk, List.getD_eq_getElem _ _ hk2] at hkd

theorem getD_map_lt (f : ℤ → ℤ) {l : List ℤ} {k : ℕ} (hk : k < l.length) (d : ℤ) :
    (l.map f).getD k d = f (l.getD k d) := by
  rw [List.getD_eq_getElem _ _ (by simpa using hk), List.getD_eq_getElem _ _ hk,
    List.getElem_map]

theorem getD_zipWith_lt (f : ℤ → ℤ → ℤ) {l₁ l₂ : List ℤ} {k : ℕ}
    (h1 : k < l₁.length) (h2 : k < l₂.length) (d : ℤ) :
    (List.zipWith f l₁ l₂).getD k d = f (l₁.getD k d) (l₂.getD k d) := by
  rw [List.getD_eq_getElem _ _ (by rw [List.length_zipWith]; exact lt_min h1 h2),
    List.getD_eq_getElem _ _ h1, List.getD_eq_getElem _ _ h2, List.getElem_zipWith]

/-- The per-cell state of a `CellLinkedList` (from `cell_linked_list.h` /
`cell_linked_list.hpp`): the grid extent `all_cells_` (one cell count per
spatial axis) and, for each cell coordinate, the cached candidate records
`cell_data_lists_` (`ListDataVector`, record type `δ`) and the stored particle
indices `cell_index_lists_` (`ConcurrentIndexVector`). -/
structure CellLinkedList (δ : Type) where
  all_cells_ : List ℤ
  cell_data_lists_ : List ℤ → List δ
  cell_index_lists_ : List ℤ → List ℕ

/-- Modelled from the spec: `getCellDataList` (declared in `cell_linked_list.h`,
not among the provided sources) returns the list stored at a cell coordinate in
O(1); the per-cell storage is embedded as a function from cell coordinates. -/
def getCellDataList {α : Type} (lists : List ℤ → List α) (cell_index : List ℤ) : List α :=
  lists cell_index

/-- Modelled from the spec: `mesh_for_each` (from `mesh_iterators.hpp`, not
among the provided sources) applies the body to every cell of the axis-aligned
box `[lower, upper)`; side effects are embedded as a state fold. -/
def mesh_for_each {σ : Type} (lower upper : List ℤ) (f : σ → List ℤ → σ) (s : σ) : σ :=
  (boxCells lower upper).foldl f s

/-- From `CellLinkedList::searchNeighborsByParticles` line 34: the lower corner
of the search box, `Arrayi::Zero().max(target_cell_index - search_depth * Arrayi::Ones())`. -/
def searchLower (target_cell_index : List ℤ) (search_depth : ℤ) : List ℤ :=
  target_cell_index.map (fun t => max 0 (t - search_depth))

/-- From `CellLinkedList::searchNeighborsByParticles` line 35: the (exclusive)
upper corner of the search box,
`all_cells_.min(target_cell_index + (search_depth + 1) * Arrayi::Ones())`. -/
def searchUpper (all_cells target_cell_index : List ℤ) (search_depth : ℤ) : List ℤ :=
  List.zipWith (fun a t => min a (t + (search_depth + 1))) all_cells target_cell_index

/-- The clamped box of cells scanned for one particle: all cells of
`[searchLower, searchUpper)`. -/
def searchCells (all_cells target_cell_index : List ℤ) (search_depth : ℤ) : List (List ℤ) :=
  boxCells (searchLower target_cell_index search_depth)
    (searchUpper all_cells target_cell_index search_depth)

variable {δ ν π σ : Type}

/-- The body of the `particle_for` lambda of
`CellLinkedList::searchNeighborsByParticles` (lines 27-43): for particle
`index_i`, fold the neighbor relation over every cached record of every cell in
the clamped search box around the particle's cell.  `CellIndexFromPosition`
(a `Mesh` member, not among the provided sources) is passed as a parameter. -/
def searchSingleParticle (cll : CellLinkedList δ) (pos : ℕ → π)
    (CellIndexFromPosition : π → List ℤ) (get_search_depth : ℕ → ℤ)
    (get_neighbor_relation : ν → π → ℕ → δ → ν) (index_i : ℕ) (neighborhood : ν) : ν :=
  let search_depth := get_search_depth index_i
  let target_cell_index := CellIndexFromPosition (pos index_i)
  mesh_for_each (searchLower target_cell_index search_depth)
    (searchUpper cll.all_cells_ target_cell_index search_depth)
    (fun nb cell_index =>
      (getCellDataList cll.cell_data_lists_ cell_index).foldl
        (fun nb2 data_list => get_neighbor_relation nb2 (pos index_i) index_i data_list) nb)
    neighborhood

/-- From `CellLinkedList::searchNeighborsByParticles` (lines 21-45): the outer
`particle_for(execution::ParallelPolicy(), ...)` loop over the dynamics range.
Each iteration reads and rewrites only the configuration entry of its own
particle, so the parallel loop is embedded as a left fold of point updates. -/
def searchNeighborsByParticles (cll : CellLinkedList δ) (loop_range : List ℕ)
    (particle_configuration : ℕ → ν) (pos : ℕ → π)
    (CellIndexFromPosition : π → List ℤ) (get_search_depth : ℕ → ℤ)
    (get_neighbor_relation : ν → π → ℕ → δ → ν) : ℕ → ν :=
  loop_range.foldl
    (fun config index_i =>
      Function.update config index_i
        (searchSingleParticle cll pos CellIndexFromPosition get_search_depth
          get_neighbor_relation index_i (config index_i)))
    particle_configuration

/-- The list of candidate records presented to the neighbor-relation predicate
for one particle: the concatenation of the cached records of all cells of the
particle's clamped search box, a function of the search inputs only. -/
def presentedRecords (cll : CellLinkedList δ) (pos : ℕ → π)
    (CellIndexFromPosition : π → List ℤ) (get_search_depth : ℕ → ℤ) (index_i : ℕ) :
    List δ :=
  (searchCells cll.all_cells_ (CellIndexFromPosition (pos index_i))
      (get_search_depth index_i)).flatMap cll.cell_data_lists_

theorem searchSingleParticle_eq_foldl (cll : CellLinkedList δ) (pos : ℕ → π)
    (cellF : π → List ℤ) (depth : ℕ → ℤ) (rel : ν → π → ℕ → δ → ν)
    (index_i : ℕ) (neighborhood : ν) :
    searchSingleParticle cll pos cellF depth rel index_i neighborhood =
      (presentedRecords cll pos cellF depth index_i).foldl
        (fun nb data_list => rel nb (pos index_i) index_i data_list) neighborhood := by
  unfold searchSingleParticle presentedRecords mesh_for_each getCellDataList searchCells
  rw [foldl_flatMap]

theorem searchNeighbors_apply_of_nodup (cll : CellLinkedList δ) (loop_range : List ℕ)
    (particle_configuration : ℕ → ν) (pos : ℕ → π) (cellF : π → List ℤ)
    (depth : ℕ → ℤ) (rel : ν → π → ℕ → δ → ν) (h : loop_range.Nodup) (j : ℕ) :
    searchNeighborsByParticles cll loop_range particle_configuration pos cellF depth rel j =
      if j ∈ loop_range then
        searchSingleParticle cll pos cellF depth rel j (particle_configuration j)
      else particle_configuration j := by
  induction loop_range generalizing particle_configuration with
  | nil => simp [searchNeighborsByParticles]
  | cons i rest ih =>
      rcases List.nodup_cons.mp h with ⟨hi, hrest⟩
      rw [searchNeighborsByParticles, List.foldl_cons, ← searchNeighborsByParticles,
        ih _ hrest]
      by_cases hji : j = i
      · subst hji
        simp [hi, Function.update_same]
      · simp [Function.update_noteq hji, List.mem_cons, hji]

theorem searchNeighbors_frame_helper (cll : CellLinkedList δ) (loop_range : List ℕ)
    (particle_configuration : ℕ → ν) (pos : ℕ → π) (cellF : π → List ℤ)
    (depth : ℕ → ℤ) (rel : ν → π → ℕ → δ → ν) (j : ℕ) (h : j ∉ loop_range) :
    searchNeighborsByParticles cll loop_range particle_configuration pos cellF depth rel j =
      particle_configuration j := by
  induction loop_range generalizing particle_configuration with
  | nil => rfl
  | cons i rest ih =>
      rw [searchNeighborsByParticles, List.foldl_cons, ← searchNeighborsByParticles,
        ih _ (fun hj => h (List.mem_cons_of_mem _ hj))]
      refine Function.update_noteq (fun hj => h ?_) _ _
      rw [hj]
      exact List.mem_cons_self i rest

/-- Cell `c` lies in the clamped search box around target cell `t` with search
depth `d`: componentwise `max 0 (t - d) ≤ c < min all_cells (t + d + 1)`. -/
def inClampedBox (all_cells target_cell_index : List ℤ) (search_depth : ℤ)
    (c : List ℤ) : Prop :=
  c.length = target_cell_index.length ∧
  ∀ k, k < target_cell_index.length →
    (max 0 (target_cell_index.getD k 0 - search_depth) ≤ c.getD k 0 ∧
     c.getD k 0 < min (all_cells.getD k 0) (target_cell_index.getD k 0 + (search_depth + 1)))

/-- Cell `c` is a valid cell of the grid: componentwise `0 ≤ c < all_cells`. -/
def inGrid (all_cells c : List ℤ) : Prop :=
  c.length = all_cells.length ∧
  ∀ k, k < all_cells.length → (0 ≤ c.getD k 0 ∧ c.getD k 0 < all_cells.getD k 0)

theorem mem_searchCells {all_cells target : List ℤ} {d : ℤ}
    (hdim : all_cells.length = target.length) (c : List ℤ) :
    c ∈ searchCells all_cells target d ↔ inClampedBox all_cells target d c := by
  unfold searchCells
  rw [mem_boxCells, forall₂_iff_getD _ _ _ 0 0, forall₂_iff_getD _ _ _ 0 0]
  unfold searchLower searchUpper inClampedBox
  simp only [List.length_map, List.length_zipWith, hdim, min_self]
  constructor
  · rintro ⟨⟨hl1, h1⟩, hl2, h2⟩
    refine ⟨hl1.symm, fun k hk => ?_⟩
    have hka : k < all_cells.length := by omega
    have e1 := getD_map_lt (fun t => max 0 (t - d)) hk 0
    have e2 := getD_zipWith_lt (fun a t => min a (t + (d + 1))) hka hk 0
    constructor
    · have hb := h1 k (by omega)
      rwa [e1] at hb
    · have hb := h2 k (by omega)
      rwa [e2] at hb
  · rintro ⟨hl, h⟩
    refine ⟨⟨hl.symm, fun k hk => ?_⟩, by omega, fun k hk => ?_⟩
    · rw [getD_map_lt (fun t => max 0 (t - d)) hk 0]
      exact (h k hk).1
    · have hka : k < all_cells.length := by omega
      have hkt : k < target.length := by omega
      rw [getD_zipWith_lt (fun a t => min a (t + (d + 1))) hka hkt 0]
      exact (h k (by omega)).2

theorem forall₂_replicate_left {α β : Type} (R : α → β → Prop) (a : α) :
    ∀ (n : ℕ) (l : List β),
      List.Forall₂ R (List.replicate n a) l ↔ (l.length = n ∧ ∀ b ∈ l, R a b)
  | 0, [] => by simp
  | 0, b :: l => by simp
  | n + 1, [] => by simp [List.replicate_succ]
  | n + 1, b :: l => by
      rw [List.replicate_succ, List.forall₂_cons, forall₂_replicate_left R a n l]
      simp only [List.length_cons, List.mem_cons]
      constructor
      · rintro ⟨hb, hl, hall⟩
        exact ⟨by omega, fun x hx => hx.elim (fun e => e ▸ hb) (hall x)⟩
      · rintro ⟨hl, hall⟩
        exact ⟨hall b (Or.inl rfl), by omega, fun x hx => hall x (Or.inr hx)⟩

theorem forall₂_replicate_right {α β : Type} (R : α → β → Prop) (b : β) :
    ∀ (n : ℕ) (l : List α),
      List.Forall₂ R l (List.replicate n b) ↔ (l.length = n ∧ ∀ a ∈ l, R a b)
  | 0, [] => by simp
  | 0, a :: l => by simp
  | n + 1, [] => by simp [List.replicate_succ]
  | n + 1, a :: l => by
      rw [List.replicate_succ, List.forall₂_cons, forall₂_replicate_right R b n l]
      simp only [List.length_cons, List.mem_cons]
      constructor
      · rintro ⟨hb, hl, hall⟩
        exact ⟨by omega, fun x hx => hx.elim (fun e => e ▸ hb) (hall x)⟩
      · rintro ⟨hl, hall⟩
        exact ⟨hall a (Or.inl rfl), by omega, fun x hx => hall x (Or.inr hx)⟩

theorem forall₂_eq_map {α β : Type} (f : α → β) :
    ∀ (c : List α) (off : List β),
      List.Forall₂ (fun x o => f x = o) c off → off = c.map f
  | [], off => fun h => by
      rw [List.forall₂_nil_left_iff] at h
      simp [h]
  | x :: c, off => fun h => by
      rcases List.forall₂_cons_left_iff.mp h with ⟨o, os, ho, hos, rfl⟩
      rw [List.map_cons, ho, forall₂_eq_map f c os hos]

/-- Modelled from the spec: one color group of the stride-3 coloring used by
`mesh_stride_forward_for` (from `mesh_iterators.hpp`, not among the provided
sources): the cells of the grid `[0, all_cells)` congruent to `offset` modulo 3
on every axis, in increasing order. -/
def strideGroupCells : List ℤ → List ℤ → List (List ℤ)
  | [], [] => [[]]
  | a :: arest, o :: orest =>
      ((intRange 0 a).filter (fun x => x % 3 = o)).flatMap
        (fun c => (strideGroupCells arest orest).map (fun cs => c :: cs))
  | _, _ => []

theorem mem_strideGroupCells : ∀ (all_cells offset c : List ℤ),
    c ∈ strideGroupCells all_cells offset ↔
      (List.Forall₂ (fun a x => 0 ≤ x ∧ x < a) all_cells c ∧
       List.Forall₂ (fun x o => x % 3 = o) c offset)
  | [], [], c => by
      simp [strideGroupCells, List.forall₂_nil_left_iff, eq_comm]
  | [], o :: orest, c => by
      constructor
      · intro h; simp [strideGroupCells] at h
      · rintro ⟨h1, h2⟩
        rw [List.forall₂_nil_left_iff] at h1
        subst h1
        exact absurd h2 (by simp)
  | a :: arest, [], c => by
      constructor
      · intro h; simp [strideGroupCells] at h
      · rintro ⟨h1, h2⟩
        rcases List.forall₂_cons_left_iff.mp h1 with ⟨x, cs, _, _, rfl⟩
        exact absurd h2 (by simp)
  | a :: arest, o :: orest, c => by
      simp only [strideGroupCells, List.mem_flatMap, List.mem_map, List.mem_filter,
        decide_eq_true_eq]
      constructor
      · rintro ⟨x, ⟨hx, hxo⟩, cs, hcs, rfl⟩
        rcases mem_intRange.mp hx with ⟨h1, h2⟩
        rcases (mem_strideGroupCells arest orest cs).mp hcs with ⟨h3, h4⟩
        exact ⟨List.Forall₂.cons ⟨h1, h2⟩ h3, List.Forall₂.cons hxo h4⟩
      · rintro ⟨h1, h2⟩
        rcases List.forall₂_cons_left_iff.mp h1 with ⟨x, cs, hx, hcs, rfl⟩
        rcases List.forall₂_cons.mp h2 with ⟨hxo, hcso⟩
        exact ⟨x, ⟨mem_intRange.mpr ⟨hx.1, hx.2⟩, hxo⟩, cs,
          (mem_strideGroupCells arest orest cs).mpr ⟨hcs, hcso⟩, rfl⟩

theorem nodup_strideGroupCells : ∀ (all_cells offset : List ℤ),
    (strideGroupCells all_cells offset).Nodup
  | [], [] => by simp [strideGroupCells]
  | [], _ :: _ => by simp [strideGroupCells]
  | _ :: _, [] => by simp [strideGroupCells]
  | a :: arest, o :: orest => by
      rw [strideGroupCells, List.nodup_flatMap]
      refine ⟨fun x _ =>
        (nodup_strideGroupCells arest orest).map (fun x y h => by injection h), ?_⟩
      refine ((nodup_intRange 0 a).filter _).imp ?_
      intro x y hxy
      intro c hc hc'
      simp only [List.mem_map] at hc hc'
      rcases hc with ⟨cs, _, rfl⟩
      rcases hc' with ⟨cs', _, h⟩
      injection h with h1 _
      exact hxy h1.symm

/-- The 3^d color offsets, in increasing order (`d` the spatial dimension). -/
def colorOffsets (d : ℕ) : List (List ℤ) :=
  boxCells (List.replicate d 0) (List.replicate d 3)

/-- Modelled from the spec: the cell order of the forward sweep of
`mesh_stride_forward_for` — color groups in increasing offset order, cells
within a group in increasing order. -/
def forwardSweepCells (all_cells : List ℤ) : List (List ℤ) :=
  (colorOffsets all_cells.length).flatMap (fun off => strideGroupCells all_cells off)

theorem mem_forwardSweepCells (all_cells c : List ℤ) :
    c ∈ forwardSweepCells all_cells ↔
      List.Forall₂ (fun a x => 0 ≤ x ∧ x < a) all_cells c := by
  unfold forwardSweepCells colorOffsets
  simp only [List.mem_flatMap]
  constructor
  · rintro ⟨off, _, hc⟩
    exact ((mem_strideGroupCells all_cells off c).mp hc).1
  · intro h
    have hmod : List.Forall₂ (fun x o => x % 3 = o) c (c.map (fun x => x % 3)) := by
      rw [List.forall₂_map_right_iff]
      exact List.forall₂_same.mpr (fun x _ => rfl)
    refine ⟨c.map (fun x => x % 3), ?_, (mem_strideGroupCells _ _ _).mpr ⟨h, hmod⟩⟩
    rw [mem_boxCells]
    constructor
    · rw [forall₂_replicate_left]
      refine ⟨by simp [h.length_eq], ?_⟩
      intro b hb
      rcases List.mem_map.mp hb with ⟨x, _, rfl⟩
      exact Int.emod_nonneg x (by norm_num)
    · rw [forall₂_replicate_right]
      refine ⟨by simp [h.length_eq], ?_⟩
      intro b hb
      rcases List.mem_map.mp hb with ⟨x, _, rfl⟩
      exact Int.emod_lt_of_pos x (by norm_num)

theorem nodup_forwardSweepCells (all_cells : List ℤ) :
    (forwardSweepCells all_cells).Nodup := by
  unfold forwardSweepCells
  rw [List.nodup_flatMap]
  refine ⟨fun off _ => nodup_strideGroupCells all_cells off, ?_⟩
  refine (nodup_boxCells _ _).imp ?_
  intro o1 o2 ho
  intro c hc hc'
  have e1 := forall₂_eq_map (fun x => x % 3) c o1
    ((mem_strideGroupCells all_cells o1 c).mp hc).2
  have e2 := forall₂_eq_map (fun x => x % 3) c o2
    ((mem_strideGroupCells all_cells o2 c).mp hc').2
  exact ho (e1.trans e2.symm)

/-- The full cell grid `[0, all_cells)` as enumerated by `mesh_for_each`. -/
def allGridCells (all_cells : List ℤ) : List (List ℤ) :=
  boxCells (List.replicate all_cells.length 0) all_cells

theorem mem_allGridCells (all_cells c : List ℤ) :
    c ∈ allGridCells all_cells ↔
      List.Forall₂ (fun a x => 0 ≤ x ∧ x < a) all_cells c := by
  unfold allGridCells
  rw [mem_boxCells, forall₂_replicate_left, forall₂_iff_getD _ _ _ 0 0,
    forall₂_iff_getD _ _ _ 0 0]
  constructor
  · rintro ⟨⟨hl, h0⟩, hl2, hlt⟩
    refine ⟨by omega, fun k hk => ?_⟩
    have hkc : k < c.length := by omega
    refine ⟨?_, hlt k hkc⟩
    have : c.getD k 0 ∈ c := by
      rw [List.getD_eq_getElem _ _ hkc]
      exact List.getElem_mem hkc
    exact h0 _ this
  · rintro ⟨hl, h⟩
    refine ⟨⟨by omega, fun b hb => ?_⟩, by omega, fun k hk => (h k (by omega)).2⟩
    rcases List.mem_iff_getElem.mp hb with ⟨k, hk, rfl⟩
    have := (h k (by omega)).1
    rwa [List.getD_eq_getElem _ _ hk] at this

theorem forwardSweep_perm_allGridCells (all_cells : List ℤ) :
    (forwardSweepCells all_cells).Perm (allGridCells all_cells) := by
  unfold allGridCells
  rw [List.perm_ext_iff_of_nodup (nodup_forwardSweepCells all_cells)
    (nodup_boxCells (List.replicate all_cells.length 0) all_cells)]
  intro c
  rw [mem_forwardSweepCells, ← mem_allGridCells, allGridCells]

/-- Modelled from the spec: `mesh_stride_forward_for` (from `mesh_iterators.hpp`,
not among the provided sources) with range `[0, all_cells)` and stride
`3 * Arrayi::Ones()` as passed by `particle_for_split`: applies the body to the
cells of each stride-3 color group, groups in increasing order. -/
def mesh_stride_forward_for {σ : Type} (all_cells : List ℤ) (f : σ → List ℤ → σ) (s : σ) : σ :=
  (forwardSweepCells all_cells).foldl f s

/-- Modelled from the spec: `mesh_stride_backward_for` — the same cells as the
forward sweep, color groups and cells within each group in decreasing order. -/
def mesh_stride_backward_for {σ : Type} (all_cells : List ℤ) (f : σ → List ℤ → σ) (s : σ) : σ :=
  ((forwardSweepCells all_cells).reverse).foldl f s

/-- Modelled from the spec: the batches dispatched by
`mesh_stride_forward_parallel_for` — one batch per color offset, each batch the
cells of that color group (the cells run concurrently within a batch; batches
run strictly one after another). -/
def parallelBatches (all_cells : List ℤ) : List (List (List ℤ)) :=
  (colorOffsets all_cells.length).map (fun off => strideGroupCells all_cells off)

/-- Modelled from the spec: `mesh_stride_forward_parallel_for`, embedded as the
batch-sequential fold of its dispatched batches. -/
def mesh_stride_forward_parallel_for {σ : Type} (all_cells : List ℤ)
    (f : σ → List ℤ → σ) (s : σ) : σ :=
  (parallelBatches all_cells).foldl (fun st batch => batch.foldl f st) s

/-- Modelled from the spec: `mesh_stride_backward_parallel_for` — batches and
cells within each batch in decreasing order. -/
def mesh_stride_backward_parallel_for {σ : Type} (all_cells : List ℤ)
    (f : σ → List ℤ → σ) (s : σ) : σ :=
  ((parallelBatches all_cells).reverse).foldl
    (fun st batch => (batch.reverse).foldl f st) s

/-- From `CellLinkedList::particle_for_split(const execution::SequencedPolicy &, ...)`
(lines 47-75): a forward sweep applying the local dynamics function to each
stored particle index in stored order, then a backward sweep in reverse cell
order applying it in reverse element order (`for (size_t i = cell_list.size(); i != 0; --i)`). -/
def CellLinkedList.particle_for_split_seq (cll : CellLinkedList δ)
    (local_dynamics_function : σ → ℕ → σ) (s : σ) : σ :=
  let s1 := mesh_stride_forward_for cll.all_cells_
    (fun st cell_index =>
      (getCellDataList cll.cell_index_lists_ cell_index).foldl local_dynamics_function st) s
  mesh_stride_backward_for cll.all_cells_
    (fun st cell_index =>
      ((getCellDataList cll.cell_index_lists_ cell_index).reverse).foldl
        local_dynamics_function st) s1

/-- From `CellLinkedList::particle_for_split(const execution::ParallelPolicy &, ...)`
(lines 77-105): the same two sweeps through the parallel stride iterators. -/
def CellLinkedList.particle_for_split_par (cll : CellLinkedList δ)
    (local_dynamics_function : σ → ℕ → σ) (s : σ) : σ :=
  let s1 := mesh_stride_forward_parallel_for cll.all_cells_
    (fun st cell_index =>
      (getCellDataList cll.cell_index_lists_ cell_index).foldl local_dynamics_function st) s
  mesh_stride_backward_parallel_for cll.all_cells_
    (fun st cell_index =>
      ((getCellDataList cll.cell_index_lists_ cell_index).reverse).foldl
        local_dynamics_function st) s1

/-- The `execution::SequencedPolicy` / `execution::ParallelPolicy` tags selecting
between the two overloads of `particle_for_split`. -/
inductive ExecutionPolicy where
  | sequenced : ExecutionPolicy
  | parallel : ExecutionPolicy
deriving DecidableEq

/-- Overload resolution of `CellLinkedList::particle_for_split` on its explicit
execution-policy argument. -/
def CellLinkedList.particle_for_split (p : ExecutionPolicy) (cll : CellLinkedList δ)
    (local_dynamics_function : σ → ℕ → σ) (s : σ) : σ :=
  match p with
  | ExecutionPolicy.sequenced => cll.particle_for_split_seq local_dynamics_function s
  | ExecutionPolicy.parallel => cll.particle_for_split_par local_dynamics_function s

/-- From `CellLinkedList::searchNeighborsByParticles` line 26: the particle loop
is issued with the hardcoded `execution::ParallelPolicy()`; the function's
signature carries no execution-policy parameter. -/
def searchNeighborsPolicy : ExecutionPolicy := ExecutionPolicy.parallel

/-- From `multilevel_cell_linked_list.h` as used by
`MultilevelCellLinkedList::particle_for_split`: the per-level cell linked lists
and the level count. -/
structure MultilevelCellLinkedList (δ : Type) where
  mesh_levels_ : List (CellLinkedList δ)
  total_levels_ : ℕ

/-- A cell linked list with no cells, used as the out-of-range default of
`List.getD` when indexing `mesh_levels_`. -/
def emptyCellLinkedList : CellLinkedList δ :=
  ⟨[], fun _ => [], fun _ => []⟩

/-- From `MultilevelCellLinkedList::particle_for_split` (lines 107-119):
`for (size_t level = 0; level != total_levels_; ++level)
   mesh_levels_[level]->particle_for_split(policy, local_dynamics_function)`. -/
def MultilevelCellLinkedList.particle_for_split (p : ExecutionPolicy)
    (m : MultilevelCellLinkedList δ) (local_dynamics_function : σ → ℕ → σ) (s : σ) : σ :=
  (List.range m.total_levels_).foldl
    (fun st level =>
      CellLinkedList.particle_for_split p (m.mesh_levels_.getD level emptyCellLinkedList)
        local_dynamics_function st) s

/-- All particle indices stored in the cell index lists, one occurrence per
stored entry, cells in grid order. -/
def storedIndices (cll : CellLinkedList δ) : List ℕ :=
  (allGridCells cll.all_cells_).flatMap cll.cell_index_lists_

/-- The indices visited by one forward sweep of `particle_for_split`, in visit
order. -/
def splitForwardTrace (cll : CellLinkedList δ) : List ℕ :=
  (forwardSweepCells cll.all_cells_).flatMap cll.cell_index_lists_

/-- The full visit order of `particle_for_split`: the forward sweep followed by
the backward sweep, which retraces the forward visits in exactly reversed
order. -/
def splitTrace (cll : CellLinkedList δ) : List ℕ :=
  splitForwardTrace cll ++ (splitForwardTrace cll).reverse

theorem particle_for_split_seq_eq_trace (cll : CellLinkedList δ)
    (f : σ → ℕ → σ) (s : σ) :
    cll.particle_for_split_seq f s = (splitTrace cll).foldl f s := by
  unfold CellLinkedList.particle_for_split_seq mesh_stride_forward_for
    mesh_stride_backward_for splitTrace splitForwardTrace getCellDataList
  rw [List.foldl_append, List.reverse_flatMap, foldl_flatMap, foldl_flatMap]
  rfl

theorem stride_forward_parallel_eq (all_cells : List ℤ) (f : σ → List ℤ → σ) (s : σ) :
    mesh_stride_forward_parallel_for all_cells f s =
      mesh_stride_forward_for all_cells f s := by
  unfold mesh_stride_forward_parallel_for mesh_stride_forward_for parallelBatches
    forwardSweepCells
  rw [foldl_flatMap, List.foldl_map]

theorem stride_backward_parallel_eq (all_cells : List ℤ) (f : σ → List ℤ → σ) (s : σ) :
    mesh_stride_backward_parallel_for all_cells f s =
      mesh_stride_backward_for all_cells f s := by
  unfold mesh_stride_backward_parallel_for mesh_stride_backward_for parallelBatches
    forwardSweepCells
  rw [← List.map_reverse, List.foldl_map, List.reverse_flatMap, foldl_flatMap]
  rfl

theorem particle_for_split_par_eq_seq (cll : CellLinkedList δ)
    (f : σ → ℕ → σ) (s : σ) :
    cll.particle_for_split_par f s = cll.particle_for_split_seq f s := by
  unfold CellLinkedList.particle_for_split_par CellLinkedList.particle_for_split_seq
  rw [stride_forward_parallel_eq, stride_backward_parallel_eq]

theorem count_splitTrace (cll : CellLinkedList δ) (p : ℕ) :
    (splitTrace cll).count p = 2 * (storedIndices cll).count p := by
  unfold splitTrace splitForwardTrace storedIndices
  rw [List.count_append, List.count_reverse, List.count_flatMap, List.count_flatMap,
    ((forwardSweep_perm_allGridCells cll.all_cells_).map _).sum_eq]
  ring

theorem foldl_range_getD {α β : Type} (dflt : α) :
    ∀ (l : List α) (g : β → α → β) (s : β),
      (List.range l.length).foldl (fun st k => g st (l.getD k dflt)) s = l.foldl g s
  | [], g, s => rfl
  | a :: t, g, s => by
      rw [List.length_cons, List.range_succ_eq_map, List.foldl_cons, List.foldl_map]
      simp only [List.getD_cons_zero, Nat.succ_eq_add_one, List.getD_cons_succ]
      exact foldl_range_getD dflt t g (g s a)

theorem multilevel_split_eq_foldl (p : ExecutionPolicy) (m : MultilevelCellLinkedList δ)
    (f : σ → ℕ → σ) (s : σ) (h : m.total_levels_ = m.mesh_levels_.length) :
    m.particle_for_split p f s =
      m.mesh_levels_.foldl
        (fun st cll => CellLinkedList.particle_for_split p cll f st) s := by
  unfold MultilevelCellLinkedList.particle_for_split
  rw [h]
  exact foldl_range_getD emptyCellLinkedList m.mesh_levels_
    (fun st cll => CellLinkedList.particle_for_split p cll f st) s

/-- C1: for every particle in the dynamics range, `searchNeighborsByParticles`
scans exactly the axis-aligned box of cells of radius `get_search_depth(i)`
around the particle's cell coordinate `t`, clamped to the grid extent: the
visited cell list is duplicate-free (each cell exactly once), its membership is
exactly `max 0 (t - d) ≤ c < min all_cells_ (t + d + 1)` componentwise, and the
particle's search folds the neighbor-relation predicate exactly once over every
cached record stored in each visited cell (the invocation list is the
concatenation of the visited cells' record lists). -/
theorem C1_search_scans_exactly_clamped_box (cll : CellLinkedList δ) (pos : ℕ → π)
    (cellF : π → List ℤ) (depth : ℕ → ℤ) (rel : ν → π → ℕ → δ → ν)
    (index_i : ℕ) (neighborhood : ν)
    (hdim : cll.all_cells_.length = (cellF (pos index_i)).length) :
    (searchCells cll.all_cells_ (cellF (pos index_i)) (depth index_i)).Nodup ∧
    (∀ c, c ∈ searchCells cll.all_cells_ (cellF (pos index_i)) (depth index_i) ↔
      inClampedBox cll.all_cells_ (cellF (pos index_i)) (depth index_i) c) ∧
    searchSingleParticle cll pos cellF depth rel index_i neighborhood =
      ((searchCells cll.all_cells_ (cellF (pos index_i)) (depth index_i)).flatMap
          cll.cell_data_lists_).foldl
        (fun nb data_list => rel nb (pos index_i) index_i data_list) neighborhood :=
  ⟨nodup_boxCells _ _, fun c => mem_searchCells hdim c,
    searchSingleParticle_eq_foldl cll pos cellF depth rel index_i neighborhood⟩

/-- C2: every cell visited by `searchNeighborsByParticles` — hence every cell
index passed to `getCellDataList` and every cell a candidate is drawn from —
satisfies `0 ≤ c < all_cells_` componentwise, for every target cell, search
depth and grid extent: no out-of-range cell access occurs. -/
theorem C2_search_cells_within_grid (all_cells target : List ℤ) (d : ℤ)
    (hdim : all_cells.length = target.length) :
    ∀ c ∈ searchCells all_cells target d, inGrid all_cells c := by
  intro c hc
  rcases (mem_searchCells hdim c).mp hc with ⟨hl, h⟩
  refine ⟨by omega, fun k hk => ?_⟩
  have hb := h k (by omega)
  omega

/-- C6: a particle all of whose clamped search-box cells hold empty candidate
lists is presented no candidate at all: the predicate is never invoked for it,
its configuration entry is left exactly as it was (an empty neighborhood stays
empty, absent nothing), and the search still completes on the whole range. -/
theorem C6_zero_neighbors_leaves_neighborhood (cll : CellLinkedList δ)
    (loop_range : List ℕ) (particle_configuration : ℕ → ν) (pos : ℕ → π)
    (cellF : π → List ℤ) (depth : ℕ → ℤ) (rel : ν → π → ℕ → δ → ν) (index_i : ℕ)
    (hnd : loop_range.Nodup) (hin : index_i ∈ loop_range)
    (hempty : ∀ c ∈ searchCells cll.all_cells_ (cellF (pos index_i)) (depth index_i),
      cll.cell_data_lists_ c = []) :
    presentedRecords cll pos cellF depth index_i = [] ∧
    (∀ nbhd : ν, searchSingleParticle cll pos cellF depth rel index_i nbhd = nbhd) ∧
    searchNeighborsByParticles cll loop_range particle_configuration pos cellF depth
        rel index_i = particle_configuration index_i := by
  have hp : presentedRecords cll pos cellF depth index_i = [] :=
    List.flatMap_eq_nil_iff.mpr hempty
  have hs : ∀ nbhd : ν, searchSingleParticle cll pos cellF depth rel index_i nbhd = nbhd := by
    intro nbhd
    rw [searchSingleParticle_eq_foldl, hp]
    rfl
  refine ⟨hp, hs, ?_⟩
  rw [searchNeighbors_apply_of_nodup cll loop_range particle_configuration pos cellF
    depth rel hnd index_i, if_pos hin, hs]

/-- C7: neighbor search is deterministic in its inputs — each particle's
resulting neighborhood is exactly the fold of the relation over
`presentedRecords`, a pure function of the grid, the cached cell data, the
positions, the cell map and the search-depth function, and entries outside the
range are returned unchanged; identical inputs therefore always produce
identical neighborhoods. -/
theorem C7_search_result_function_of_inputs (cll : CellLinkedList δ)
    (loop_range : List ℕ) (particle_configuration : ℕ → ν) (pos : ℕ → π)
    (cellF : π → List ℤ) (depth : ℕ → ℤ) (rel : ν → π → ℕ → δ → ν)
    (hnd : loop_range.Nodup) :
    ∀ j, searchNeighborsByParticles cll loop_range particle_configuration pos cellF
        depth rel j =
      if j ∈ loop_range then
        (presentedRecords cll pos cellF depth j).foldl
          (fun nb data_list => rel nb (pos j) j data_list) (particle_configuration j)
      else particle_configuration j := by
  intro j
  rw [searchNeighbors_apply_of_nodup cll loop_range particle_configuration pos cellF
    depth rel hnd j]
  by_cases hj : j ∈ loop_range
  · rw [if_pos hj, if_pos hj, searchSingleParticle_eq_foldl]
  · rw [if_neg hj, if_neg hj]

/-- C9: frame property — `searchNeighborsByParticles` rewrites only the
configuration entries of particles in the dynamics range; every entry outside
the range is returned unchanged (positions and cell data are only read: the
embedding takes them as pure inputs). -/
theorem C9_search_frame (cll : CellLinkedList δ) (loop_range : List ℕ)
    (particle_configuration : ℕ → ν) (pos : ℕ → π) (cellF : π → List ℤ)
    (depth : ℕ → ℤ) (rel : ν → π → ℕ → δ → ν) (j : ℕ) (h : j ∉ loop_range) :
    searchNeighborsByParticles cll loop_range particle_configuration pos cellF depth
        rel j = particle_configuration j :=
  searchNeighbors_frame_helper cll loop_range particle_configuration pos cellF depth
    rel j h

/-- C10: the engine does not exclude a particle from its own candidate set —
with a nonnegative search depth the particle's own cell always belongs to its
clamped search box, and every record stored in any search-box cell (the
particle's own record included) appears in the candidate list presented to the
caller-supplied predicate; self-exclusion is the predicate's responsibility. -/
theorem C10_no_self_exclusion (cll : CellLinkedList δ) (pos : ℕ → π)
    (cellF : π → List ℤ) (depth : ℕ → ℤ) (index_i : ℕ)
    (hdim : cll.all_cells_.length = (cellF (pos index_i)).length)
    (hd : 0 ≤ depth index_i)
    (ht : inGrid cll.all_cells_ (cellF (pos index_i))) :
    cellF (pos index_i) ∈
      searchCells cll.all_cells_ (cellF (pos index_i)) (depth index_i) ∧
    ∀ (r : δ) (c : List ℤ),
      c ∈ searchCells cll.all_cells_ (cellF (pos index_i)) (depth index_i) →
      r ∈ cll.cell_data_lists_ c →
      r ∈ presentedRecords cll pos cellF depth index_i := by
  constructor
  · rw [mem_searchCells hdim]
    rcases ht with ⟨hl, h⟩
    refine ⟨rfl, fun k hk => ?_⟩
    have hb := h k (by omega)
    omega
  · intro r c hc hr
    unfold presentedRecords
    exact List.mem_flatMap.mpr ⟨c, hc, hr⟩

/-- C3: the sequenced `particle_for_split` performs exactly two sweeps over the
stride-3 color groups — the forward sweep visiting each cell's particle list in
stored order, then the backward sweep retracing the very same visits in exactly
reversed order (groups decreasing, reverse element order within each cell) —
so its complete application order is `splitTrace` (the forward trace followed
by its reversal), and every particle index stored in the cell index lists has
the local dynamics function applied to it exactly twice per stored occurrence,
once per sweep. -/
theorem C3_split_sequenced_two_sweeps (cll : CellLinkedList δ) (f : σ → ℕ → σ) (s : σ) :
    cll.particle_for_split_seq f s = (splitTrace cll).foldl f s ∧
    ∀ p : ℕ, (splitTrace cll).count p = 2 * (storedIndices cll).count p :=
  ⟨particle_for_split_seq_eq_trace cll f s, count_splitTrace cll⟩

/-- C4 counterexample: the claim says two distinct cells dispatched in the same
parallel batch have coordinate difference `≥ 3` along EVERY axis.  In the 1×6
grid, cells `(0,0)` and `(0,3)` lie in the same batch (color group of offset
`(0,0)`), are distinct, yet differ by `0 < 3` along axis 0. -/
theorem C4_counterexample :
    strideGroupCells [1, 6] [0, 0] ∈ parallelBatches [1, 6] ∧
    ([0, 0] : List ℤ) ∈ strideGroupCells [1, 6] [0, 0] ∧
    ([0, 3] : List ℤ) ∈ strideGroupCells [1, 6] [0, 0] ∧
    ([0, 0] : List ℤ) ≠ [0, 3] ∧
    ¬ (∀ k, k < 2 →
        3 ≤ |([0, 0] : List ℤ).getD k 0 - ([0, 3] : List ℤ).getD k 0|) := by
  decide

/-- C4 amended: any two cells dispatched in the same parallel batch (same
stride-3 color group) have a coordinate difference along every axis that is a
multiple of 3, and when the cells are distinct the difference is at least 3 in
absolute value along at least one axis — so cells of one batch are never
adjacent. -/
theorem C4_same_batch_stride_multiples (all_cells : List ℤ) (batch : List (List ℤ))
    (c₁ c₂ : List ℤ) (hb : batch ∈ parallelBatches all_cells)
    (h₁ : c₁ ∈ batch) (h₂ : c₂ ∈ batch) :
    (∀ k, k < c₁.length → (3 : ℤ) ∣ (c₁.getD k 0 - c₂.getD k 0)) ∧
    (c₁ ≠ c₂ → ∃ k, k < c₁.length ∧ 3 ≤ |c₁.getD k 0 - c₂.getD k 0|) := by
  rcases List.mem_map.mp hb with ⟨off, hoff, rfl⟩
  rcases (mem_strideGroupCells all_cells off c₁).mp h₁ with ⟨hg₁, hm₁⟩
  rcases (mem_strideGroupCells all_cells off c₂).mp h₂ with ⟨hg₂, hm₂⟩
  rw [forall₂_iff_getD _ _ _ 0 0] at hm₁ hm₂
  rcases hm₁ with ⟨hl₁, hmod₁⟩
  rcases hm₂ with ⟨hl₂, hmod₂⟩
  have hdvd : ∀ k, k < c₁.length → (3 : ℤ) ∣ (c₁.getD k 0 - c₂.getD k 0) := by
    intro k hk
    have e₁ := hmod₁ k hk
    have e₂ := hmod₂ k (by omega)
    omega
  refine ⟨hdvd, fun hne => ?_⟩
  by_contra hno
  push_neg at hno
  apply hne
  apply List.ext_getElem (by omega)
  intro n h₁n h₂n
  have hd := hdvd n h₁n
  rcases abs_lt.mp (hno n h₁n) with ⟨hlo, hhi⟩
  have he : c₁.getD n 0 = c₂.getD n 0 := by omega
  rwa [List.getD_eq_getElem _ _ h₁n, List.getD_eq_getElem _ _ h₂n] at he

/-- C5: `MultilevelCellLinkedList::particle_for_split` dispatches
`particle_for_split` to every level exactly once, in the fixed order level 0 up
to `total_levels_ - 1`, passing the same policy and the same local dynamics
function to each, each level's dispatch issued only after the previous one: the
whole operation is the sequential left fold of the per-level dispatch over
`mesh_levels_` in list order. -/
theorem C5_multilevel_every_level_in_order (p : ExecutionPolicy)
    (m : MultilevelCellLinkedList δ) (f : σ → ℕ → σ) (s : σ)
    (h : m.total_levels_ = m.mesh_levels_.length) :
    m.particle_for_split p f s =
      m.mesh_levels_.foldl
        (fun st cll => CellLinkedList.particle_for_split p cll f st) s :=
  multilevel_split_eq_foldl p m f s h

/-- C8 counterexample: the claim says neighbor search accepts an
execution-policy parameter choosing between sequential and parallel execution.
`searchNeighborsByParticles` has no such parameter: its particle loop is issued
with the hardcoded `execution::ParallelPolicy()` (line 26), so its mode is the
fixed constant parallel policy and can never be the sequenced policy at any
call site. -/
theorem C8_counterexample :
    searchNeighborsPolicy = ExecutionPolicy.parallel ∧
    searchNeighborsPolicy ≠ ExecutionPolicy.sequenced := by
  decide

/-- C8 amended: split iteration accepts an explicit execution-policy parameter
at the call site, dispatching to the sequenced or the parallel overload, while
neighbor search takes no policy parameter and always runs under the parallel
policy. -/
theorem C8_split_policy_selected_search_fixed :
    (∀ (cll : CellLinkedList δ) (f : σ → ℕ → σ) (s : σ),
        CellLinkedList.particle_for_split ExecutionPolicy.sequenced cll f s =
          cll.particle_for_split_seq f s ∧
        CellLinkedList.particle_for_split ExecutionPolicy.parallel cll f s =
          cll.particle_for_split_par f s) ∧
    searchNeighborsPolicy = ExecutionPolicy.parallel :=
  ⟨fun _ _ _ => ⟨rfl, rfl⟩, rfl⟩

/-- A concrete 4×4 cell linked list used to instantiate the theorems: one
cached record (particle 7) in cell (1,1), particle indices 1 and 2 stored
in cell (0,0). -/
def testCLL : CellLinkedList ℕ :=
  ⟨[4, 4], fun c => if c = [1, 1] then [7] else [],
    fun c => if c = [0, 0] then [1, 2] else []⟩

/-- A concrete 2×2 second level for the multilevel instantiation. -/
def testCLL2 : CellLinkedList ℕ :=
  ⟨[2, 2], fun _ => [], fun c => if c = [1, 0] then [9] else []⟩

/-- A concrete 3×3 cell linked list with every cell empty. -/
def testEmptyCLL : CellLinkedList ℕ :=
  ⟨[3, 3], fun _ => [], fun _ => []⟩

/-- A concrete two-level multilevel structure. -/
def testMultilevel : MultilevelCellLinkedList ℕ :=
  ⟨[testCLL, testCLL2], 2⟩

/-- Concrete particle positions: every particle sits in cell (1,1) (positions
are embedded as their cell coordinates, with `id` as the cell map). -/
def testPos : ℕ → List ℤ := fun _ => [1, 1]

/-- Concrete neighbor relation: append every candidate record. -/
def testRel : List ℕ → List ℤ → ℕ → ℕ → List ℕ :=
  fun nb _ _ data_list => nb ++ [data_list]

/-- Concrete search depth: one cell ring. -/
def testDepth : ℕ → ℤ := fun _ => 1

theorem C1_witness :
    testCLL.all_cells_.length = (id (testPos 0)).length ∧
    ((searchCells testCLL.all_cells_ (id (testPos 0)) (testDepth 0)).Nodup ∧
     (∀ c, c ∈ searchCells testCLL.all_cells_ (id (testPos 0)) (testDepth 0) ↔
        inClampedBox testCLL.all_cells_ (id (testPos 0)) (testDepth 0) c) ∧
     searchSingleParticle testCLL testPos id testDepth testRel 0 [] =
       ((searchCells testCLL.all_cells_ (id (testPos 0)) (testDepth 0)).flatMap
           testCLL.cell_data_lists_).foldl
         (fun nb data_list => testRel nb (testPos 0) 0 data_list) []) :=
  ⟨rfl, C1_search_scans_exactly_clamped_box testCLL testPos id testDepth testRel 0 [] rfl⟩

theorem C2_witness :
    ([4, 4] : List ℤ).length = ([1, 1] : List ℤ).length ∧
    ∀ c ∈ searchCells [4, 4] [1, 1] 1, inGrid [4, 4] c :=
  ⟨rfl, C2_search_cells_within_grid [4, 4] [1, 1] 1 rfl⟩

theorem C4_witness :
    strideGroupCells [1, 6] [0, 0] ∈ parallelBatches [1, 6] ∧
    ([0, 0] : List ℤ) ∈ strideGroupCells [1, 6] [0, 0] ∧
    ([0, 3] : List ℤ) ∈ strideGroupCells [1, 6] [0, 0] ∧
    ((∀ k, k < ([0, 0] : List ℤ).length →
        (3 : ℤ) ∣ (([0, 0] : List ℤ).getD k 0 - ([0, 3] : List ℤ).getD k 0)) ∧
     (([0, 0] : List ℤ) ≠ [0, 3] →
        ∃ k, k < ([0, 0] : List ℤ).length ∧
          3 ≤ |([0, 0] : List ℤ).getD k 0 - ([0, 3] : List ℤ).getD k 0|)) :=
  ⟨by decide, by decide, by decide,
    C4_same_batch_stride_multiples [1, 6] (strideGroupCells [1, 6] [0, 0])
      [0, 0] [0, 3] (by decide) (by decide) (by decide)⟩

theorem C5_witness :
    testMultilevel.total_levels_ = testMultilevel.mesh_levels_.length ∧
    testMultilevel.particle_for_split ExecutionPolicy.sequenced
        (fun st i => st ++ [i]) ([] : List ℕ) =
      testMultilevel.mesh_levels_.foldl
        (fun st cll => CellLinkedList.particle_for_split ExecutionPolicy.sequenced cll
          (fun st i => st ++ [i]) st) [] :=
  ⟨rfl, C5_multilevel_every_level_in_order ExecutionPolicy.sequenced testMultilevel
    (fun st i => st ++ [i]) [] rfl⟩

theorem C6_witness :
    ([0] : List ℕ).Nodup ∧ 0 ∈ ([0] : List ℕ) ∧
    (∀ c ∈ searchCells testEmptyCLL.all_cells_ (id (testPos 0)) (testDepth 0),
      testEmptyCLL.cell_data_lists_ c = []) ∧
    (presentedRecords testEmptyCLL testPos id testDepth 0 = [] ∧
     (∀ nbhd : List ℕ,
        searchSingleParticle testEmptyCLL testPos id testDepth testRel 0 nbhd = nbhd) ∧
     searchNeighborsByParticles testEmptyCLL [0] (fun _ => ([] : List ℕ)) testPos id
        testDepth testRel 0 = []) :=
  ⟨by decide, by decide, fun c _ => rfl,
    C6_zero_neighbors_leaves_neighborhood testEmptyCLL [0] (fun _ => []) testPos id
      testDepth testRel 0 (by decide) (by decide) (fun c _ => rfl)⟩

theorem C7_witness :
    ([0, 1] : List ℕ).Nodup ∧
    ∀ j, searchNeighborsByParticles testCLL [0, 1] (fun _ => ([] : List ℕ)) testPos id
        testDepth testRel j =
      if j ∈ ([0, 1] : List ℕ) then
        (presentedRecords testCLL testPos id testDepth j).foldl
          (fun nb data_list => testRel nb (testPos j) j data_list) []
      else [] :=
  ⟨by decide, C7_search_result_function_of_inputs testCLL [0, 1] (fun _ => []) testPos
    id testDepth testRel (by decide)⟩

theorem C9_witness :
    (5 : ℕ) ∉ ([0, 1] : List ℕ) ∧
    searchNeighborsByParticles testCLL [0, 1] (fun _ => ([] : List ℕ)) testPos id
        testDepth testRel 5 = [] :=
  ⟨by decide, C9_search_frame testCLL [0, 1] (fun _ => []) testPos id testDepth
    testRel 5 (by decide)⟩

theorem C10_witness :
    testCLL.all_cells_.length = (id (testPos 0)).length ∧
    0 ≤ testDepth 0 ∧
    inGrid testCLL.all_cells_ (id (testPos 0)) ∧
    (id (testPos 0) ∈
        searchCells testCLL.all_cells_ (id (testPos 0)) (testDepth 0) ∧
     ∀ (r : ℕ) (c : List ℤ),
       c ∈ searchCells testCLL.all_cells_ (id (testPos 0)) (testDepth 0) →
       r ∈ testCLL.cell_data_lists_ c →
       r ∈ presentedRecords testCLL testPos id testDepth 0) :=
  ⟨rfl, by decide, ⟨rfl, by decide⟩,
    C10_no_self_exclusion testCLL testPos id testDepth 0 rfl (by decide)
      ⟨rfl, by decide⟩⟩

end CellLinkedListVerify
